import Mathlib

/-!
Verification of the TenorGIFUploader pipeline (shallow embedding).

The Python sources (`main.py`, `cerebras.py`, `tenorgif.py`) are embedded as
executable Lean definitions: Python strings become `List Char`, the batch
arithmetic of `process_tenor_upload` becomes pure functions on `Nat`, the
imperative upload loop becomes a trace of events, and the external
collaborators (the text-generation service, per-clip transcoding, the file
dialog) become oracle parameters.
-/

/-- Python strings are modelled as lists of characters. -/
abbrev Str := List Char

/-! ## Batch planner

From `process_tenor_upload` (`main.py` lines 499-519 and `cerebras.py` lines
536-557): `total_batches = math.ceil(N / batch_size)`; for each
`batch_num` in `range(total_batches)`:
`start_file = batch_num * batch_size + 1` and
`end_file = min((batch_num + 1) * batch_size, N)`.
-/

/-- `math.ceil(n / bs)` on naturals (the Python source computes it with
float division; for the integer ranges involved both agree). -/
def totalBatches (n bs : Nat) : Nat := (n + bs - 1) / bs

/-- `start_file = (batch_num * batch_size) + 1`. -/
def batchStart (b bs : Nat) : Nat := b * bs + 1

/-- `end_file = min((batch_num + 1) * batch_size, N)`. -/
def batchEnd (b bs n : Nat) : Nat := min ((b + 1) * bs) n

/-- The planned batches, in loop order: `(start_file, end_file)` for each
`batch_num` in `range(total_batches)`. -/
def batch_plan (n bs : Nat) : List (Nat × Nat) :=
  (List.range (totalBatches n bs)).map fun b => (batchStart b bs, batchEnd b bs n)

/-! ## Upload session

The loop body of `process_tenor_upload` (`main.py` lines 506-542,
`cerebras.py` lines 543-579) is modelled as a trace of the three operations
the spec cares about: `select` (the `open_files_batch_new` call, recorded
with its boolean result), `applyTags` (the `paste_tags_at_coordinates`
call) and `advance` (the `wait_and_refresh` call).  The outcome of
`open_files_batch_new` for each batch ordinal is an oracle `ok`.  The code
runs, for each `batch_num`: `open_files_batch_new`; if it succeeded,
`paste_tags_at_coordinates`, then `wait_and_refresh` unless this is the
last batch; if it failed, only a message is printed and the loop continues
with the next batch.
-/

inductive UploadEv where
  | select (startFile endFile : Nat) (ok : Bool)
  | applyTags
  | advance
deriving DecidableEq

def UploadEv.isSelect : UploadEv → Bool
  | .select _ _ _ => true
  | _ => false

def UploadEv.isApplyTags : UploadEv → Bool
  | .applyTags => true
  | _ => false

def UploadEv.isAdvance : UploadEv → Bool
  | .advance => true
  | _ => false

/-- Events of one iteration of the batch loop. -/
def uploadBatchEvents (n bs total_batches b : Nat) (ok : Nat → Bool) : List UploadEv :=
  UploadEv.select (batchStart b bs) (batchEnd b bs n) (ok b) ::
    (if ok b then
      UploadEv.applyTags ::
        (if b < total_batches - 1 then [UploadEv.advance] else [])
    else [])

/-- The whole upload loop of `process_tenor_upload`, as a trace. -/
def process_tenor_upload_trace (n bs : Nat) (ok : Nat → Bool) : List UploadEv :=
  (List.range (totalBatches n bs)).flatMap
    fun b => uploadBatchEvents n bs (totalBatches n bs) b ok

/-- An oracle under which the first batch's file selection fails and the
second succeeds. -/
def failFirstBatch : Nat → Bool := fun b => b != 0

/-! ## Tag generation

`setup_gemini` (`main.py` lines 221-289) and `setup_cerebras`
(`cerebras.py` lines 237-312) share the same tag logic.  The external
generation call either yields a response text or throws; the whole body is
wrapped in `try/except`.  On success the response is stripped, newlines
removed, split on commas, tokens stripped and empty tokens dropped; if
fewer than 14 tags result, defaults are appended (skipping duplicates)
until 14, otherwise the list is truncated to 14.  On exception the handler
builds tags from the video's own tags when present (prefixing `#`,
removing spaces, extending with six defaults and truncating to 14) or uses
the 14 default tags.
-/

/-- Whitespace as recognised by Python's `str.strip()` (ASCII subset). -/
def isWsChar (c : Char) : Bool :=
  c == ' ' || c == '\t' || c == '\n' || c == '\x0d' || c == '\x0b' || c == '\x0c'

/-- Remove leading and trailing characters satisfying `p`, like Python's
`str.strip`. -/
def stripP (p : Char → Bool) (s : Str) : Str :=
  ((s.dropWhile p).reverse.dropWhile p).reverse

/-- Python `str.strip()`. -/
def pyStrip (s : Str) : Str := stripP isWsChar s

/-- Python `str.split(sep)` for a one-character separator. -/
def splitOnChar (sep : Char) : Str → List Str
  | [] => [[]]
  | c :: rest =>
    let r := splitOnChar sep rest
    if c = sep then [] :: r
    else
      match r with
      | [] => [[c]]
      | t :: ts => (c :: t) :: ts

/-- The 14-entry default tag list shared by both scripts. -/
def default_tags : List Str :=
  ["#gif", "#animation", "#funny", "#meme", "#trending", "#viral", "#entertainment",
   "#comedy", "#dance", "#viralvideo", "#fun", "#lol", "#popular", "#fyp"].map
    String.data

/-- The six defaults used to extend hint-derived tags in the except branch. -/
def fallbackExtension : List Str :=
  ["#gif", "#animation", "#funny", "#meme", "#trending", "#viral"].map String.data

/-- `[tag.strip() for tag in text.replace("\n", "").split(",") if tag.strip()]`. -/
def parseTags (text : Str) : List Str :=
  ((splitOnChar ',' (text.filter fun c => c != '\n')).map pyStrip).filter
    fun t => !t.isEmpty

/-- The de-duplicating padding loop: append each default tag not yet
present while fewer than 14 tags are held. -/
def padWithDefaults (tags : List Str) (ds : List Str) : List Str :=
  ds.foldl (fun acc d => if d ∉ acc ∧ acc.length < 14 then acc ++ [d] else acc) tags

/-- The success path: parse the (stripped) response and normalise to 14. -/
def generatedTags (text : Str) : List Str :=
  let tags := parseTags (pyStrip text)
  if tags.length < 14 then padWithDefaults tags default_tags
  else tags.take 14

/-- The except-branch tags derived from the video's own tags:
`["#" + tag.replace(" ", "") for tag in video_tags[:14]]`, extended with
six defaults and truncated to 14 when short. -/
def hintDerivedTags (video_tags : List Str) : List Str :=
  let t := (video_tags.take 14).map fun tag => '#' :: tag.filter fun c => c != ' '
  if t.length < 14 then (t ++ fallbackExtension).take 14 else t

/-- The whole except branch of `setup_gemini` / `setup_cerebras`. -/
def fallbackTags (video_tags : List Str) : List Str :=
  if video_tags ≠ [] then hintDerivedTags video_tags else default_tags

/-- Outcome of the external generation call: a response text, or a raised
exception. -/
inductive GenOutcome where
  | success (text : Str)
  | failure
deriving DecidableEq

/-- The body of the `try` block, up to the point that can throw. -/
def setup_gemini_try : GenOutcome → Except Unit Str
  | .success text => .ok text
  | .failure => .error ()

/-- `setup_gemini` / `setup_cerebras`: returns the success flag and the
final `TAGS` value; the except handler catches every failure. -/
def setup_gemini (o : GenOutcome) (video_tags : List Str) : Bool × List Str :=
  match setup_gemini_try o with
  | .ok text => (true, generatedTags text)
  | .error _ => (false, fallbackTags video_tags)

/-- The `TAGS` list produced by `setup_gemini` / `setup_cerebras`. -/
def setupTags (o : GenOutcome) (video_tags : List Str) : List Str :=
  (setup_gemini o video_tags).2

/-- The tag count the code actually produces for each outcome. -/
def expectedTagCount : GenOutcome → List Str → Nat
  | .success _, _ => 14
  | .failure, hints => if hints = [] then 14 else min (hints.length + 6) 14

/-! ## Segmentation and existing-artifact detection

`video_to_gifs` (`main.py` lines 160-219) computes
`num_clips = ceil(duration / clip_length)`, sets the global `N` to
`num_clips` *before* the conversion loop, writes `output_<i+1>.gif` for
every clip whose `ffmpeg` run exits with code 0 (an oracle here), and
returns `successful_conversions`.  `process_single_video` (lines 582-592)
ignores that return value: the upload stage reads the global `N`.
`check_existing_gifs` (lines 46-64) counts the files in the output
directory whose name ends in `.gif` and starts with `output_`; when any
are found `process_single_video` skips `video_to_gifs` and sets `N` to
that count.
-/

def strStartsWith (pre s : Str) : Bool := pre.isPrefixOf s

def strEndsWith (suf s : Str) : Bool := suf.isSuffixOf s

/-- The artifact file name `output_<idx>.gif`. -/
def gifName (idx : Nat) : Str := "output_".data ++ (Nat.repr idx).data ++ ".gif".data

/-- Result of a `video_to_gifs` call: the global `N` it leaves behind, the
1-based indices of the gif files actually written, and its return value. -/
structure GifConversion where
  globalN : Nat
  producedIdx : List Nat
  returned : Nat
deriving DecidableEq

/-- `video_to_gifs`, given `num_clips` and the per-clip transcode outcome. -/
def video_to_gifs (num_clips : Nat) (ok : Nat → Bool) : GifConversion :=
  { globalN := num_clips
  , producedIdx := (List.range num_clips).filterMap
      fun i => if ok i then some (i + 1) else none
  , returned := ((List.range num_clips).filter ok).length }

/-- The gif files `video_to_gifs` leaves in the output directory. -/
def producedGifs (num_clips : Nat) (ok : Nat → Bool) : List Str :=
  ((video_to_gifs num_clips ok).producedIdx).map gifName

/-- State of the output directory as seen by `check_existing_gifs`. -/
inductive DirState where
  | missing
  | readError
  | present (files : List Str)

/-- `check_existing_gifs`: `(False, 0)` when the directory does not exist or
listing it raises; otherwise count files ending in `.gif` and starting with
`output_`. -/
def check_existing_gifs : DirState → Bool × Nat
  | .missing => (false, 0)
  | .readError => (false, 0)
  | .present files =>
    let gif_files := files.filter
      fun f => strEndsWith ".gif".data f && strStartsWith "output_".data f
    if gif_files ≠ [] then (true, gif_files.length) else (false, 0)

/-- The artifact-count stage of `process_single_video`: returns the `N`
handed to the upload stage and whether `video_to_gifs` was invoked. -/
def gifStage (dir : DirState) (segClips : Nat) (segOk : Nat → Bool) : Nat × Bool :=
  let r := check_existing_gifs dir
  if r.1 then (r.2, false)
  else ((video_to_gifs segClips segOk).globalN, true)

/-- Transcode oracle where clip 0 fails and every later clip succeeds. -/
def failClip0 : Nat → Bool := fun i => i != 0

/-! ## URL extraction

`extract_urls_from_input` (`main.py` lines 20-44, identical in
`cerebras.py`): first `re.findall(r'https?://[^\s,]+', user_input)`; if
that is empty, `re.split(r'[,\s]+', user_input)`, strip each token and
keep the non-empty ones starting with `http://` or `https://`.

`findUrls` embeds the findall scan: at each position the pattern matches
iff `https://` or `http://` is present followed by at least one character
outside `[\s,]`, the run of such characters being taken greedily; matches
are non-overlapping, scanning left to right.  The recursion is driven by a
fuel argument initialised to the input length, which bounds the number of
scan steps (each step consumes at least one character);
`findUrlsAux_fuel_irrel` shows any sufficient fuel gives the same result.
-/

/-- The character class `[\s,]` used by both regexes. -/
def isSepChar (c : Char) : Bool := isWsChar c || c == ','

/-- One attempt to match `https?://[^\s,]+` at the current position:
returns the match and the remainder of the input after it. -/
def urlMatchAt (s : Str) : Option (Str × Str) :=
  if "https://".data.isPrefixOf s then
    if ((s.drop 8).takeWhile fun c => !isSepChar c).isEmpty then none
    else some ("https://".data ++ (s.drop 8).takeWhile fun c => !isSepChar c,
      (s.drop 8).dropWhile fun c => !isSepChar c)
  else if "http://".data.isPrefixOf s then
    if ((s.drop 7).takeWhile fun c => !isSepChar c).isEmpty then none
    else some ("http://".data ++ (s.drop 7).takeWhile fun c => !isSepChar c,
      (s.drop 7).dropWhile fun c => !isSepChar c)
  else none

/-- The `re.findall` scan, with an explicit step bound. -/
def findUrlsAux : Nat → Str → List Str
  | 0, _ => []
  | fuel + 1, s =>
    match urlMatchAt s with
    | some (m, rest) => m :: findUrlsAux fuel rest
    | none =>
      match s with
      | [] => []
      | _ :: t => findUrlsAux fuel t

/-- `re.findall(r'https?://[^\s,]+', s)`. -/
def findUrls (s : Str) : List Str := findUrlsAux s.length s

/-- One step of the `re.split(r'[,\s]+', ...)` scan, processed from the
right: the flag records whether the character to the right was a
separator, so that a whole run of separators produces one boundary. -/
def splitRunsStep (p : Char → Bool) (c : Char) : Bool × List Str → Bool × List Str
  | (sepRight, acc) =>
    if p c then
      if sepRight then (true, acc) else (true, [] :: acc)
    else
      (false, match acc with
        | [] => [[c]]
        | t :: ts => (c :: t) :: ts)

/-- `re.split` on runs of characters satisfying `p` (with the boundary
empty strings Python produces at the ends). -/
def splitRuns (p : Char → Bool) (s : Str) : List Str :=
  (s.foldr (splitRunsStep p) (false, [[]])).2

/-- `extract_urls_from_input`. -/
def extract_urls_from_input (user_input : Str) : List Str :=
  let found_urls := findUrls user_input
  if found_urls ≠ [] then found_urls
  else
    ((splitRuns isSepChar user_input).map pyStrip).filter
      fun u => !u.isEmpty
        && (strStartsWith "http://".data u || strStartsWith "https://".data u)

/-! ## Filename sanitisation

`sanitize_filename` (`main.py` lines 66-94, identical in `cerebras.py`):
empty input maps to `Unknown_Video`; whitespace runs are collapsed to a
single space (`re.sub(r'\s+', ' ', name)`); each of the Windows-invalid
characters is removed; the result is truncated to 150 characters; then
whitespace, dots and hyphens are stripped from both ends in that order;
if nothing remains the default `Unknown_Video` is used.
-/

/-- Collapse runs of whitespace to one space, processed left to right with
a flag recording whether the previous character was whitespace. -/
def collapseWsAux : Bool → Str → Str
  | _, [] => []
  | prevWs, c :: rest =>
    if isWsChar c then
      if prevWs then collapseWsAux true rest
      else ' ' :: collapseWsAux true rest
    else c :: collapseWsAux false rest

/-- `re.sub(r'\s+', ' ', name)`. -/
def collapseWs (s : Str) : Str := collapseWsAux false s

/-- `invalid_chars = '<>:"/\\|?*'`. -/
def invalid_chars : Str := "<>:\"/\\|?*".data

/-- The loop `for char in invalid_chars: name = name.replace(char, '')`. -/
def removeInvalid (s : Str) : Str :=
  invalid_chars.foldl (fun acc ch => acc.filter fun x => x != ch) s

/-- The body of `sanitize_filename` after the empty-input check, up to the
final emptiness fallback. -/
def sanitize_core (name : Str) : Str :=
  let n1 := collapseWs name
  let n2 := removeInvalid n1
  let n3 := if 150 < n2.length then n2.take 150 else n2
  stripP (fun c => c == '-') (stripP (fun c => c == '.') (stripP isWsChar n3))

/-- `sanitize_filename`. -/
def sanitize_filename (name : Str) : Str :=
  if name = [] then "Unknown_Video".data
  else if sanitize_core name = [] then "Unknown_Video".data
  else sanitize_core name

lemma lt_totalBatches_iff {n bs : Nat} (hbs : 1 ≤ bs) (b : Nat) :
    b < totalBatches n bs ↔ b * bs < n := by
  unfold totalBatches
  rw [show (b < (n + bs - 1) / bs) = (b + 1 ≤ (n + bs - 1) / bs) from rfl,
    Nat.le_div_iff_mul_le (by omega : 0 < bs)]
  have : (b + 1) * bs = b * bs + bs := by ring
  omega

lemma sum_range_sub_tele (f : Nat → Nat) (h : ∀ b, f b ≤ f (b + 1)) (B : Nat) :
    ((List.range B).map fun b => f (b + 1) - f b).sum = f B - f 0 := by
  induction B with
  | zero => simp
  | succ B ih =>
    rw [List.range_succ, List.map_append, List.sum_append, ih]
    have h1 : f 0 ≤ f B := monotone_nat_of_le_succ h (Nat.zero_le B)
    have h2 : f B ≤ f (B + 1) := h B
    simp
    omega

/-- C1: for every `total_artifacts ≥ 1` and `batch_size ≥ 1` the batch plan
partitions `1..total_artifacts` exactly: every index lies in exactly one
batch, consecutive batches are gapless and ascending, every batch is
non-empty of size at most `batch_size`, and the batch sizes sum to
`total_artifacts`. -/
theorem batch_plan_partitions (n bs : Nat) (_hn : 1 ≤ n) (hbs : 1 ≤ bs) :
    (∀ i, 1 ≤ i → i ≤ n →
        ∃! b, b < totalBatches n bs ∧ batchStart b bs ≤ i ∧ i ≤ batchEnd b bs n)
    ∧ (∀ b, b + 1 < totalBatches n bs → batchStart (b + 1) bs = batchEnd b bs n + 1)
    ∧ (∀ b, b < totalBatches n bs →
        batchStart b bs ≤ batchEnd b bs n ∧ batchEnd b bs n - batchStart b bs + 1 ≤ bs)
    ∧ ((batch_plan n bs).map fun p => p.2 - p.1 + 1).sum = n := by
  have hBmul : ∀ b, b < totalBatches n bs ↔ b * bs < n := lt_totalBatches_iff hbs
  refine ⟨?_, ?_, ?_, ?_⟩
  · -- every index belongs to exactly one batch
    intro i hi1 hin
    have hdm : (i - 1) / bs * bs + (i - 1) % bs = i - 1 := Nat.div_add_mod' _ _
    have hr : (i - 1) % bs < bs := Nat.mod_lt _ (by omega)
    have hsucc : ((i - 1) / bs + 1) * bs = (i - 1) / bs * bs + bs := by ring
    refine ⟨(i - 1) / bs, ⟨?_, ?_, ?_⟩, ?_⟩
    · rw [hBmul]; omega
    · unfold batchStart; omega
    · unfold batchEnd
      exact le_min (by omega) hin
    · intro b hb
      obtain ⟨hbB, hbs1, hbe⟩ := hb
      unfold batchStart at hbs1
      unfold batchEnd at hbe
      have hbe2 : i ≤ (b + 1) * bs := le_trans hbe (min_le_left _ _)
      have hsb : (b + 1) * bs = b * bs + bs := by ring
      symm
      exact Nat.div_eq_of_lt_le (by omega) (by omega)
  · -- gapless ascending order
    intro b hb
    have h1 : (b + 1) * bs < n := (hBmul (b + 1)).mp hb
    unfold batchStart batchEnd
    rw [min_eq_left (le_of_lt h1)]
  · -- batch sizes bounded by batch_size
    intro b hb
    have h1 : b * bs < n := (hBmul b).mp hb
    unfold batchStart batchEnd
    have hsucc : (b + 1) * bs = b * bs + bs := by ring
    refine ⟨le_min (by omega) (by omega), ?_⟩
    rcases Nat.le_total ((b + 1) * bs) n with h | h
    · rw [min_eq_left h]; omega
    · rw [min_eq_right h]; omega
  · -- the batch sizes sum to n
    unfold batch_plan
    rw [List.map_map]
    have hcongr : ∀ b ∈ List.range (totalBatches n bs),
        ((fun p : Nat × Nat => p.2 - p.1 + 1) ∘ fun b => (batchStart b bs, batchEnd b bs n)) b
          = (fun b => min ((b + 1) * bs) n - min (b * bs) n) b := by
      intro b hb
      have hbB : b * bs < n := (hBmul b).mp (List.mem_range.mp hb)
      simp only [Function.comp]
      unfold batchStart batchEnd
      have hsucc : (b + 1) * bs = b * bs + bs := by ring
      rw [min_eq_left (le_of_lt hbB)]
      rcases Nat.le_total ((b + 1) * bs) n with h | h
      · rw [min_eq_left h]; omega
      · rw [min_eq_right h]; omega
    rw [List.map_congr_left hcongr]
    have hmono : ∀ b, min (b * bs) n ≤ min ((b + 1) * bs) n := by
      intro b
      have : (b + 1) * bs = b * bs + bs := by ring
      exact min_le_min (by omega) (le_refl n)
    have htele := sum_range_sub_tele (fun b => min (b * bs) n) hmono (totalBatches n bs)
    simp only at htele
    rw [htele]
    have hBn : n ≤ totalBatches n bs * bs := by
      have := (hBmul (totalBatches n bs)).not.mp (lt_irrefl _)
      omega
    simp [min_eq_right hBn]

/-- Witness for `batch_plan_partitions` at `n = 7`, `bs = 3`. -/
theorem batch_plan_partitions_witness :
    1 ≤ 7 ∧ 1 ≤ 3 ∧
    ((∀ i, 1 ≤ i → i ≤ 7 →
        ∃! b, b < totalBatches 7 3 ∧ batchStart b 3 ≤ i ∧ i ≤ batchEnd b 3 7)
    ∧ (∀ b, b + 1 < totalBatches 7 3 → batchStart (b + 1) 3 = batchEnd b 3 7 + 1)
    ∧ (∀ b, b < totalBatches 7 3 →
        batchStart b 3 ≤ batchEnd b 3 7 ∧ batchEnd b 3 7 - batchStart b 3 + 1 ≤ 3)
    ∧ ((batch_plan 7 3).map fun p => p.2 - p.1 + 1).sum = 7) :=
  ⟨by decide, by decide, batch_plan_partitions 7 3 (by decide) (by decide)⟩

lemma countP_flatMap {α β : Type} (p : α → Bool) (f : β → List α) (l : List β) :
    (l.flatMap f).countP p = (l.map fun b => (f b).countP p).sum := by
  induction l with
  | nil => simp
  | cons a l ih => simp [List.flatMap_cons, List.countP_append, ih]

lemma sum_map_ite_filter (l : List Nat) (p : Nat → Bool) :
    (l.map fun b => if p b then (1 : Nat) else 0).sum = (l.filter p).length := by
  induction l with
  | nil => simp
  | cons a l ih => by_cases h : p a <;> simp [h, ih] <;> omega

lemma sum_map_one (l : List Nat) : (l.map fun _ => (1 : Nat)).sum = l.length := by
  induction l with
  | nil => simp
  | cons a l ih => simp [ih]; omega

/-- C5: when every `open_files_batch_new` call succeeds, the loop performs
`wait_and_refresh` exactly `total_batches - 1` times, and the trace ends
with the last batch's `paste_tags_at_coordinates` (so `wait_and_refresh`
is never invoked after it). -/
theorem advance_count (n bs : Nat) (ok : Nat → Bool) (hn : 1 ≤ n) (hbs : 1 ≤ bs)
    (hok : ∀ b, b < totalBatches n bs → ok b = true) :
    (process_tenor_upload_trace n bs ok).countP UploadEv.isAdvance
        = totalBatches n bs - 1
    ∧ (process_tenor_upload_trace n bs ok).getLast? = some UploadEv.applyTags := by
  have hB : 1 ≤ totalBatches n bs := by
    have := (lt_totalBatches_iff hbs (n := n) 0).mpr (by omega)
    omega
  constructor
  · unfold process_tenor_upload_trace
    rw [countP_flatMap]
    have hcongr : ∀ b ∈ List.range (totalBatches n bs),
        (uploadBatchEvents n bs (totalBatches n bs) b ok).countP UploadEv.isAdvance
          = if b < totalBatches n bs - 1 then 1 else 0 := by
      intro b hb
      have hokb := hok b (List.mem_range.mp hb)
      by_cases h : b < totalBatches n bs - 1 <;>
        simp [uploadBatchEvents, hokb, h, List.countP_cons, UploadEv.isAdvance,
          UploadEv.isSelect, UploadEv.isApplyTags]
    rw [List.map_congr_left hcongr]
    -- sum of the indicator of "not the last batch" over all batches
    obtain ⟨m, hm⟩ := Nat.exists_eq_succ_of_ne_zero (by omega : totalBatches n bs ≠ 0)
    rw [hm, List.range_succ, List.map_append, List.sum_append]
    have hone : ∀ b ∈ List.range m, (if b < m + 1 - 1 then (1 : Nat) else 0) = 1 := by
      intro b hb
      simp [List.mem_range.mp hb]
    rw [List.map_congr_left hone, sum_map_one]
    simp
  · unfold process_tenor_upload_trace
    obtain ⟨m, hm⟩ := Nat.exists_eq_succ_of_ne_zero (by omega : totalBatches n bs ≠ 0)
    have hokm := hok m (by omega)
    rw [hm, List.range_succ, List.flatMap_append]
    simp [uploadBatchEvents, hokm, List.getLast?_append]

/-- Witness for `advance_count` at `n = 5`, `bs = 2` with an
always-successful oracle: 3 batches, 2 advances, trace ends in tags. -/
theorem advance_count_witness :
    1 ≤ 5 ∧ 1 ≤ 2 ∧
    ((process_tenor_upload_trace 5 2 (fun _ => true)).countP UploadEv.isAdvance
        = totalBatches 5 2 - 1
    ∧ (process_tenor_upload_trace 5 2 (fun _ => true)).getLast?
        = some UploadEv.applyTags) :=
  ⟨by decide, by decide,
    advance_count 5 2 (fun _ => true) (by decide) (by decide) (fun b _ => rfl)⟩

/-- C2 (amended): the loop does NOT stop at the first `open_files_batch_new`
failure — every planned batch still gets a `select` call, and the number of
batches that complete (`paste_tags_at_coordinates` performed) equals the
number of batches whose `select` succeeded, wherever the failures fall. -/
theorem upload_continues_after_failure (n bs : Nat) (ok : Nat → Bool) :
    (process_tenor_upload_trace n bs ok).countP UploadEv.isSelect = totalBatches n bs
    ∧ (process_tenor_upload_trace n bs ok).countP UploadEv.isApplyTags
        = ((List.range (totalBatches n bs)).filter ok).length := by
  constructor
  · unfold process_tenor_upload_trace
    rw [countP_flatMap]
    have hcongr : ∀ b ∈ List.range (totalBatches n bs),
        (uploadBatchEvents n bs (totalBatches n bs) b ok).countP UploadEv.isSelect
          = 1 := by
      intro b _
      by_cases hokb : ok b <;> by_cases h : b < totalBatches n bs - 1 <;>
        simp [uploadBatchEvents, hokb, h, List.countP_cons, UploadEv.isSelect]
    rw [List.map_congr_left hcongr, sum_map_one, List.length_range]
  · unfold process_tenor_upload_trace
    rw [countP_flatMap]
    have hcongr : ∀ b ∈ List.range (totalBatches n bs),
        (uploadBatchEvents n bs (totalBatches n bs) b ok).countP UploadEv.isApplyTags
          = if ok b then 1 else 0 := by
      intro b _
      by_cases hokb : ok b <;> by_cases h : b < totalBatches n bs - 1 <;>
        simp [uploadBatchEvents, hokb, h, List.countP_cons, UploadEv.isApplyTags]
    rw [List.map_congr_left hcongr, sum_map_ite_filter]

/-- C2 counterexample: with 4 artifacts in batches of 3 (two batches) and
`open_files_batch_new` failing on the first batch, the claim predicts the
session halts at the failure (one `select` call, zero `apply_tags` calls);
the code instead goes on to process the second batch. -/
theorem upload_halt_counterexample :
    failFirstBatch 0 = false
    ∧ ¬ ((process_tenor_upload_trace 4 3 failFirstBatch).countP UploadEv.isSelect = 1
        ∧ (process_tenor_upload_trace 4 3 failFirstBatch).countP UploadEv.isApplyTags
            = 0) := by
  decide

/-- C6: with `total_artifacts = 0` the planner yields no batches and the
upload loop performs no `select`, `apply_tags` or `advance` call at all. -/
theorem plan_zero_artifacts (bs : Nat) (ok : Nat → Bool) (hbs : 1 ≤ bs) :
    batch_plan 0 bs = [] ∧ process_tenor_upload_trace 0 bs ok = [] := by
  have hB : totalBatches 0 bs = 0 := by
    unfold totalBatches
    exact Nat.div_eq_of_lt (by omega)
  simp [batch_plan, process_tenor_upload_trace, hB]

/-- Witness for `plan_zero_artifacts` at `bs = 3`. -/
theorem plan_zero_artifacts_witness :
    1 ≤ 3 ∧ (batch_plan 0 3 = []
      ∧ process_tenor_upload_trace 0 3 (fun _ => true) = []) :=
  ⟨by decide, plan_zero_artifacts 3 (fun _ => true) (by decide)⟩

lemma pad_full : ∀ (ds acc : List Str), 14 ≤ acc.length → padWithDefaults acc ds = acc := by
  intro ds
  induction ds with
  | nil => intro acc _; rfl
  | cons d ds ih =>
    intro acc h
    unfold padWithDefaults
    have hcond : ¬(d ∉ acc ∧ acc.length < 14) := by
      rintro ⟨_, h2⟩
      omega
    rw [List.foldl_cons, if_neg hcond]
    exact ih acc h

lemma pad_mem : ∀ (ds acc : List Str) (x : Str),
    x ∈ padWithDefaults acc ds → x ∈ acc ∨ x ∈ ds := by
  intro ds
  induction ds with
  | nil => intro acc x h; exact Or.inl h
  | cons d ds ih =>
    intro acc x h
    unfold padWithDefaults at h
    rw [List.foldl_cons] at h
    rcases ih (if d ∉ acc ∧ acc.length < 14 then acc ++ [d] else acc) x h with h1 | h1
    · by_cases hc : d ∉ acc ∧ acc.length < 14
      · rw [if_pos hc] at h1
        rcases List.mem_append.mp h1 with h2 | h2
        · exact Or.inl h2
        · simp at h2
          subst h2
          simp
      · rw [if_neg hc] at h1
        exact Or.inl h1
    · right
      simp [h1]

lemma pad_reaches : ∀ (ds : List Str), ds.Nodup → ∀ acc : List Str, acc.length ≤ 14 →
    14 ≤ acc.length + (ds.filter fun d => decide (d ∉ acc)).length →
    (padWithDefaults acc ds).length = 14 := by
  intro ds
  induction ds with
  | nil =>
    intro _ acc hle hge
    simp at hge
    unfold padWithDefaults
    simp
    omega
  | cons d ds ih =>
    intro hnd acc hle hge
    have hnd' : ds.Nodup := (List.nodup_cons.mp hnd).2
    have hdnotin : d ∉ ds := (List.nodup_cons.mp hnd).1
    unfold padWithDefaults
    rw [List.foldl_cons]
    by_cases hmem : d ∈ acc
    · have hcond : ¬(d ∉ acc ∧ acc.length < 14) := by tauto
      rw [if_neg hcond]
      apply ih hnd' acc hle
      have heq : ((d :: ds).filter fun x => decide (x ∉ acc))
          = ds.filter fun x => decide (x ∉ acc) := by
        simp [List.filter_cons, hmem]
      rw [heq] at hge
      exact hge
    · by_cases hlen : acc.length < 14
      · rw [if_pos ⟨hmem, hlen⟩]
        have hfeq : (ds.filter fun x => decide (x ∉ acc ++ [d]))
            = ds.filter fun x => decide (x ∉ acc) := by
          apply List.filter_congr
          intro x hx
          have hxd : x ≠ d := fun h => hdnotin (h ▸ hx)
          simp [List.mem_append, hxd]
        have hge2 : ((d :: ds).filter fun x => decide (x ∉ acc)).length
            = (ds.filter fun x => decide (x ∉ acc)).length + 1 := by
          simp [List.filter_cons, hmem]
        rw [hge2] at hge
        apply ih hnd' (acc ++ [d]) (by simp; omega)
        rw [List.length_append, hfeq]
        simp only [List.length_singleton]
        omega
      · have hcond : ¬(d ∉ acc ∧ acc.length < 14) := by tauto
        rw [if_neg hcond]
        have := pad_full ds acc (by omega)
        unfold padWithDefaults at this
        rw [this]
        omega

lemma nodup_subset_length (l t : List Str) (hnd : l.Nodup) (hsub : ∀ x ∈ l, x ∈ t) :
    l.length ≤ t.length := by
  classical
  have h1 : l.toFinset.card = l.length := List.toFinset_card_of_nodup hnd
  have h2 : l.toFinset ⊆ t.toFinset := by
    intro x hx
    rw [List.mem_toFinset] at hx ⊢
    exact hsub x hx
  calc l.length = l.toFinset.card := h1.symm
    _ ≤ t.toFinset.card := Finset.card_le_card h2
    _ ≤ t.length := t.toFinset_card_le

lemma length_filter_split (l : List Str) (p : Str → Bool) :
    (l.filter p).length + (l.filter fun x => !(p x)).length = l.length := by
  induction l with
  | nil => simp
  | cons a l ih => cases h : p a <;> simp [List.filter_cons, h] <;> omega

lemma parseTags_ne_nil (text : Str) : ∀ t ∈ parseTags text, t ≠ [] := by
  intro t ht
  have := (List.mem_filter.mp ht).2
  simpa using this

lemma generatedTags_length (text : Str) : (generatedTags text).length = 14 := by
  unfold generatedTags
  by_cases h : (parseTags (pyStrip text)).length < 14
  · rw [if_pos h]
    apply pad_reaches default_tags (by decide) _ (by omega)
    have hsplit := length_filter_split default_tags
      fun d => decide (d ∈ parseTags (pyStrip text))
    have hlen14 : default_tags.length = 14 := by decide
    have hinle : (default_tags.filter
        fun d => decide (d ∈ parseTags (pyStrip text))).length
          ≤ (parseTags (pyStrip text)).length := by
      apply nodup_subset_length
      · exact List.Nodup.filter _ (by decide)
      · intro x hx
        have := (List.mem_filter.mp hx).2
        simpa using this
    have hcongr : (default_tags.filter
          fun d => decide (d ∉ parseTags (pyStrip text)))
        = default_tags.filter
          fun d => !(decide (d ∈ parseTags (pyStrip text))) := by
      apply List.filter_congr
      intro x _
      simp
    rw [hcongr]
    omega
  · rw [if_neg h, List.length_take]
    omega

lemma generatedTags_ne_nil (text : Str) : ∀ t ∈ generatedTags text, t ≠ [] := by
  intro t ht
  unfold generatedTags at ht
  by_cases h : (parseTags (pyStrip text)).length < 14
  · rw [if_pos h] at ht
    rcases pad_mem default_tags _ t ht with h1 | h1
    · exact parseTags_ne_nil _ t h1
    · exact (by decide : ∀ x ∈ default_tags, x ≠ []) t h1
  · rw [if_neg h] at ht
    exact parseTags_ne_nil _ t (List.Sublist.mem ht (List.take_sublist _ _))

lemma hintDerivedTags_length (hints : List Str) :
    (hintDerivedTags hints).length = min (hints.length + 6) 14 := by
  unfold hintDerivedTags
  have hext : fallbackExtension.length = 6 := by decide
  by_cases h : ((hints.take 14).map
      fun tag => '#' :: tag.filter fun c => c != ' ').length < 14
  · rw [if_pos h]
    rw [List.length_take, List.length_append, List.length_map, List.length_take] at *
    omega
  · rw [if_neg h]
    rw [List.length_map, List.length_take] at *
    omega

lemma hintDerivedTags_ne_nil (hints : List Str) :
    ∀ t ∈ hintDerivedTags hints, t ≠ [] := by
  intro t ht
  unfold hintDerivedTags at ht
  have hmem : t ∈ ((hints.take 14).map fun tag => '#' :: tag.filter fun c => c != ' ')
      ++ fallbackExtension := by
    by_cases h : ((hints.take 14).map
        fun tag => '#' :: tag.filter fun c => c != ' ').length < 14
    · rw [if_pos h] at ht
      exact List.Sublist.mem ht (List.take_sublist _ _)
    · rw [if_neg h] at ht
      exact List.mem_append.mpr (Or.inl ht)
  rcases List.mem_append.mp hmem with h1 | h1
  · obtain ⟨a, _, ha⟩ := List.mem_map.mp h1
    rw [← ha]
    exact List.cons_ne_nil _ _
  · exact (by decide : ∀ x ∈ fallbackExtension, x ≠ []) t h1

lemma setupTags_length (o : GenOutcome) (hints : List Str) :
    (setupTags o hints).length = expectedTagCount o hints := by
  cases o with
  | success text => exact generatedTags_length text
  | failure =>
    show (fallbackTags hints).length = _
    unfold fallbackTags expectedTagCount
    by_cases h : hints = []
    · simp [h]
      decide
    · simp [h, hintDerivedTags_length]

lemma setupTags_ne_nil (o : GenOutcome) (hints : List Str) :
    ∀ t ∈ setupTags o hints, t ≠ [] := by
  cases o with
  | success text => exact generatedTags_ne_nil text
  | failure =>
    show ∀ t ∈ fallbackTags hints, t ≠ []
    unfold fallbackTags
    by_cases h : hints = []
    · simp [h]
      decide
    · simp [h]
      exact fun t ht => hintDerivedTags_ne_nil hints t ht

/-- C3 counterexample: when the generation call throws and exactly one hint
tag is provided, the handler produces 7 tags, not 14 — the claim that the
tag set always has exactly 14 entries is false. -/
theorem tag_count_counterexample :
    (setupTags .failure ["x".data]).length = 7
    ∧ ¬ (setupTags .failure ["x".data]).length = 14 := by
  decide

/-- C3 (amended): the tag generator always terminates with non-empty tags;
the count is exactly 14 on every success outcome and on a thrown exception
without hint tags, but on a thrown exception with hint tags it is
`min (len(hints) + 6, 14)` — i.e. `len(hints) + 6` when fewer than 8 hints
are present. -/
theorem setup_tags_card (o : GenOutcome) (hints : List Str) :
    (∀ t ∈ setupTags o hints, t ≠ [])
    ∧ (setupTags o hints).length = expectedTagCount o hints :=
  ⟨setupTags_ne_nil o hints, setupTags_length o hints⟩

/-- C4: the tag generator never propagates the generation failure: for every
outcome of the external call it completes with a non-empty list of
non-empty tags, and on the exception outcome the result is exactly the
deterministic fallback — tags derived from the hint tags when present, the
default tag list otherwise. -/
theorem setup_tags_total (o : GenOutcome) (hints : List Str) :
    (setup_gemini o hints).2 ≠ []
    ∧ (∀ t ∈ (setup_gemini o hints).2, t ≠ [])
    ∧ (o = .failure →
        setup_gemini o hints
          = (false, if hints = [] then default_tags else hintDerivedTags hints)) := by
  refine ⟨?_, setupTags_ne_nil o hints, ?_⟩
  · have hlen := setupTags_length o hints
    have hpos : expectedTagCount o hints ≠ 0 := by
      cases o with
      | success text => simp [expectedTagCount]
      | failure =>
        show (if hints = [] then 14 else min (hints.length + 6) 14) ≠ 0
        split <;> omega
    intro hnil
    have hnil2 : setupTags o hints = [] := hnil
    rw [hnil2] at hlen
    simp at hlen
    exact hpos hlen.symm
  · intro ho
    subst ho
    show setup_gemini .failure hints = _
    unfold setup_gemini setup_gemini_try fallbackTags
    by_cases h : hints = [] <;> simp [h]

/-- Witness for `setup_tags_total` at the exception outcome with no hints. -/
theorem setup_tags_total_witness :
    (setup_gemini .failure ([] : List Str)).2 ≠ []
    ∧ (∀ t ∈ (setup_gemini .failure ([] : List Str)).2, t ≠ [])
    ∧ (GenOutcome.failure = .failure →
        setup_gemini .failure ([] : List Str)
          = (false, if ([] : List Str) = [] then default_tags
              else hintDerivedTags [])) :=
  setup_tags_total .failure []

lemma gifName_matches (idx : Nat) :
    strEndsWith ".gif".data (gifName idx) = true
    ∧ strStartsWith "output_".data (gifName idx) = true := by
  constructor
  · have h : gifName idx
        = ("output_".data ++ (Nat.repr idx).data) ++ ".gif".data := by
      simp [gifName]
    rw [strEndsWith, h]
    exact List.isSuffixOf_iff_suffix.mpr (List.suffix_append _ _)
  · rw [strStartsWith, gifName]
    exact List.isPrefixOf_iff_prefix.mpr (List.prefix_append _ _)

/-- C7: when the output directory already holds exactly the artifacts
`output_1.gif .. output_k.gif` (`k ≥ 1`), `check_existing_gifs` reports
`(True, k)`, and `process_single_video` skips segmentation entirely,
handing `k` to the upload stage as `total_artifacts`. -/
theorem existing_gifs_skip_segmentation (k segClips : Nat) (segOk : Nat → Bool)
    (hk : 1 ≤ k) :
    check_existing_gifs (.present ((List.range k).map fun i => gifName (i + 1)))
        = (true, k)
    ∧ gifStage (.present ((List.range k).map fun i => gifName (i + 1))) segClips segOk
        = (k, false) := by
  have hfilter : ((List.range k).map fun i => gifName (i + 1)).filter
      (fun f => strEndsWith ".gif".data f && strStartsWith "output_".data f)
        = (List.range k).map fun i => gifName (i + 1) := by
    rw [List.filter_eq_self]
    intro a ha
    obtain ⟨i, _, hi⟩ := List.mem_map.mp ha
    rw [← hi]
    have := gifName_matches (i + 1)
    simp [this.1, this.2]
  have hne : ((List.range k).map fun i => gifName (i + 1)) ≠ [] := by
    intro h
    have := congrArg List.length h
    simp at this
    omega
  have hcheck : check_existing_gifs
      (.present ((List.range k).map fun i => gifName (i + 1))) = (true, k) := by
    simp only [check_existing_gifs]
    rw [hfilter, if_pos hne]
    simp
  refine ⟨hcheck, ?_⟩
  unfold gifStage
  rw [hcheck]
  simp

/-- Witness for `existing_gifs_skip_segmentation` with two pre-existing
artifacts. -/
theorem existing_gifs_skip_segmentation_witness :
    1 ≤ 2 ∧
    (check_existing_gifs (.present ((List.range 2).map fun i => gifName (i + 1)))
        = (true, 2)
    ∧ gifStage (.present ((List.range 2).map fun i => gifName (i + 1))) 0
        (fun _ => false) = (2, false)) :=
  ⟨by decide, existing_gifs_skip_segmentation 2 0 (fun _ => false) (by decide)⟩

/-- C8 evaluated at its failing input: with 2 clips where the first
transcode fails and the second succeeds, the only file written is
`output_2.gif` (indices are not contiguous from 1), the success count is 1,
yet the global `N` consumed by the upload stage is 2 — the claimed
invariant (indices `1..N`, `N` = successful count) does not hold. -/
theorem video_to_gifs_gap :
    (video_to_gifs 2 failClip0).producedIdx = [2]
    ∧ (video_to_gifs 2 failClip0).returned = 1
    ∧ (video_to_gifs 2 failClip0).globalN = 2
    ∧ (video_to_gifs 2 failClip0).producedIdx
        ≠ List.range' 1 (video_to_gifs 2 failClip0).returned
    ∧ (video_to_gifs 2 failClip0).globalN ≠ (video_to_gifs 2 failClip0).returned
    ∧ gifStage .missing 2 failClip0 = (2, true) := by
  decide

lemma urlMatchAt_rest_lt {s m rest : Str} (h : urlMatchAt s = some (m, rest)) :
    rest.length < s.length := by
  unfold urlMatchAt at h
  by_cases h1 : "https://".data.isPrefixOf s
  · rw [if_pos h1] at h
    have hlen : 8 ≤ s.length := by
      have := List.IsPrefix.length_le (List.isPrefixOf_iff_prefix.mp h1)
      simpa using this
    by_cases h2 : ((s.drop 8).takeWhile fun c => !isSepChar c).isEmpty
    · simp [h2] at h
    · rw [if_neg h2] at h
      simp only [Option.some.injEq, Prod.mk.injEq] at h
      obtain ⟨-, h5⟩ := h
      subst h5
      have hd := (List.dropWhile_sublist (p := fun c => !isSepChar c)
        (l := s.drop 8)).length_le
      rw [List.length_drop] at hd
      omega
  · rw [if_neg h1] at h
    by_cases h3 : "http://".data.isPrefixOf s
    · rw [if_pos h3] at h
      have hlen : 7 ≤ s.length := by
        have := List.IsPrefix.length_le (List.isPrefixOf_iff_prefix.mp h3)
        simpa using this
      by_cases h2 : ((s.drop 7).takeWhile fun c => !isSepChar c).isEmpty
      · simp [h2] at h
      · rw [if_neg h2] at h
        simp only [Option.some.injEq, Prod.mk.injEq] at h
        obtain ⟨-, h5⟩ := h
        subst h5
        have hd := (List.dropWhile_sublist (p := fun c => !isSepChar c)
          (l := s.drop 7)).length_le
        rw [List.length_drop] at hd
        omega
    · simp [h3] at h

lemma urlMatchAt_starts {s m rest : Str} (h : urlMatchAt s = some (m, rest)) :
    strStartsWith "http://".data m = true ∨ strStartsWith "https://".data m = true := by
  unfold urlMatchAt at h
  by_cases h1 : "https://".data.isPrefixOf s
  · rw [if_pos h1] at h
    by_cases h2 : ((s.drop 8).takeWhile fun c => !isSepChar c).isEmpty
    · simp [h2] at h
    · rw [if_neg h2] at h
      simp only [Option.some.injEq, Prod.mk.injEq] at h
      obtain ⟨h4, -⟩ := h
      right
      rw [strStartsWith, ← h4]
      exact List.isPrefixOf_iff_prefix.mpr (List.prefix_append _ _)
  · rw [if_neg h1] at h
    by_cases h3 : "http://".data.isPrefixOf s
    · rw [if_pos h3] at h
      by_cases h2 : ((s.drop 7).takeWhile fun c => !isSepChar c).isEmpty
      · simp [h2] at h
      · rw [if_neg h2] at h
        simp only [Option.some.injEq, Prod.mk.injEq] at h
        obtain ⟨h4, -⟩ := h
        left
        rw [strStartsWith, ← h4]
        exact List.isPrefixOf_iff_prefix.mpr (List.prefix_append _ _)
    · simp [h3] at h

lemma findUrlsAux_fuel_irrel : ∀ (f1 f2 : Nat) (s : Str),
    s.length ≤ f1 → s.length ≤ f2 → findUrlsAux f1 s = findUrlsAux f2 s := by
  intro f1
  induction f1 with
  | zero =>
    intro f2 s h1 _
    have hs : s = [] := List.length_eq_zero.mp (by omega)
    subst hs
    cases f2 with
    | zero => rfl
    | succ f2 => simp [findUrlsAux, urlMatchAt]
  | succ f1 ih =>
    intro f2 s h1 h2
    cases f2 with
    | zero =>
      have hs : s = [] := List.length_eq_zero.mp (by omega)
      subst hs
      simp [findUrlsAux, urlMatchAt]
    | succ f2 =>
      rcases hm : urlMatchAt s with - | ⟨m, rest⟩
      · cases s with
        | nil => simp [findUrlsAux, hm]
        | cons c t =>
          have e1 : findUrlsAux (f1 + 1) (c :: t) = findUrlsAux f1 t := by
            simp [findUrlsAux, hm]
          have e2 : findUrlsAux (f2 + 1) (c :: t) = findUrlsAux f2 t := by
            simp [findUrlsAux, hm]
          rw [e1, e2]
          exact ih f2 t (by simp at h1 ⊢; omega) (by simp at h2 ⊢; omega)
      · have hlt := urlMatchAt_rest_lt hm
        have e1 : findUrlsAux (f1 + 1) s = m :: findUrlsAux f1 rest := by
          simp [findUrlsAux, hm]
        have e2 : findUrlsAux (f2 + 1) s = m :: findUrlsAux f2 rest := by
          simp [findUrlsAux, hm]
        rw [e1, e2, ih f2 rest (by omega) (by omega)]

lemma findUrlsAux_starts : ∀ (fuel : Nat) (s : Str), ∀ u ∈ findUrlsAux fuel s,
    strStartsWith "http://".data u = true
      ∨ strStartsWith "https://".data u = true := by
  intro fuel
  induction fuel with
  | zero => intro s u hu; simp [findUrlsAux] at hu
  | succ fuel ih =>
    intro s u hu
    rcases hm : urlMatchAt s with - | ⟨m, rest⟩
    · cases s with
      | nil =>
        rw [show findUrlsAux (fuel + 1) [] = [] from by simp [findUrlsAux, hm]] at hu
        simp at hu
      | cons c t =>
        rw [show findUrlsAux (fuel + 1) (c :: t) = findUrlsAux fuel t from by
          simp [findUrlsAux, hm]] at hu
        exact ih t u hu
    · rw [show findUrlsAux (fuel + 1) s = m :: findUrlsAux fuel rest from by
        simp [findUrlsAux, hm]] at hu
      rcases List.mem_cons.mp hu with h | h
      · subst h
        exact urlMatchAt_starts hm
      · exact ih rest u h

lemma splitRunsStep_inv (p : Char → Bool) (c : Char) (sepRight : Bool)
    (acc : List Str) (h : ∀ t ∈ acc, ∀ x ∈ t, p x = false) :
    ∀ t ∈ (splitRunsStep p c (sepRight, acc)).2, ∀ x ∈ t, p x = false := by
  intro t ht x hx
  by_cases hc : p c
  · cases sepRight with
    | true =>
      simp only [splitRunsStep, hc, if_true] at ht
      exact h t ht x hx
    | false =>
      simp only [splitRunsStep, hc, if_true] at ht
      rcases List.mem_cons.mp ht with h1 | h1
      · subst h1
        simp at hx
      · exact h t h1 x hx
  · cases acc with
    | nil =>
      simp only [splitRunsStep, hc] at ht
      simp at ht
      subst ht
      simp at hx
      subst hx
      simpa using hc
    | cons a as =>
      simp only [splitRunsStep, hc] at ht
      simp only [Bool.false_eq_true, if_false] at ht
      rcases List.mem_cons.mp ht with h1 | h1
      · subst h1
        rcases List.mem_cons.mp hx with h2 | h2
        · subst h2
          simpa using hc
        · exact h a (by simp) x h2
      · exact h t (by simp [h1]) x hx

lemma splitRuns_no_sep (p : Char → Bool) (s : Str) :
    ∀ t ∈ splitRuns p s, ∀ x ∈ t, p x = false := by
  have main : ∀ (l : Str) (st : Bool × List Str),
      (∀ t ∈ st.2, ∀ x ∈ t, p x = false) →
      ∀ t ∈ (l.foldr (splitRunsStep p) st).2, ∀ x ∈ t, p x = false := by
    intro l
    induction l with
    | nil => intro st h; exact h
    | cons c l ih =>
      intro st h
      rw [List.foldr_cons]
      have hinner := ih st h
      have hstep := splitRunsStep_inv p c (l.foldr (splitRunsStep p) st).1
        (l.foldr (splitRunsStep p) st).2 hinner
      simpa using hstep
  intro t ht
  refine main s (false, [[]]) ?_ t ht
  intro t2 ht2 x hx
  simp at ht2
  subst ht2
  simp at hx

lemma stripP_eq_self (p : Char → Bool) (t : Str) (h : ∀ c ∈ t, p c = false) :
    stripP p t = t := by
  have hdw : ∀ (l : Str), (∀ c ∈ l, p c = false) → l.dropWhile p = l := by
    intro l hl
    cases l with
    | nil => rfl
    | cons c l =>
      rw [List.dropWhile_cons, if_neg (by simp [hl c (List.mem_cons_self c l)])]
  unfold stripP
  rw [hdw t h, hdw t.reverse (fun c hc => h c (List.mem_reverse.mp hc)),
    List.reverse_reverse]

/-- C9: `extract_urls_from_input` returns the regex matches when any exist,
otherwise the non-empty comma/whitespace-separated tokens that start with
`http://` or `https://`; in both cases every returned string starts with
`http://` or `https://`. -/
theorem extract_urls_spec (s : Str) :
    (findUrls s ≠ [] → extract_urls_from_input s = findUrls s)
    ∧ (findUrls s = [] →
        extract_urls_from_input s
          = (splitRuns isSepChar s).filter
              fun u => !u.isEmpty
                && (strStartsWith "http://".data u
                  || strStartsWith "https://".data u))
    ∧ ∀ u ∈ extract_urls_from_input s,
        strStartsWith "http://".data u = true
          ∨ strStartsWith "https://".data u = true := by
  have hmapid : (splitRuns isSepChar s).map pyStrip = splitRuns isSepChar s := by
    have hid : ∀ t ∈ splitRuns isSepChar s, pyStrip t = t := by
      intro t ht
      apply stripP_eq_self
      intro c hc
      have hsep := splitRuns_no_sep isSepChar s t ht c hc
      unfold isSepChar at hsep
      cases hor : isWsChar c
      · rfl
      · rw [hor] at hsep
        simp at hsep
    rw [List.map_congr_left hid]
    exact List.map_id' _
  have hpart1 : findUrls s ≠ [] → extract_urls_from_input s = findUrls s := by
    intro h
    simp only [extract_urls_from_input]
    rw [if_pos h]
  have hpart2 : findUrls s = [] →
      extract_urls_from_input s
        = (splitRuns isSepChar s).filter
            fun u => !u.isEmpty
              && (strStartsWith "http://".data u
                || strStartsWith "https://".data u) := by
    intro h
    simp only [extract_urls_from_input]
    rw [if_neg (by simp [h]), hmapid]
  refine ⟨hpart1, hpart2, ?_⟩
  intro u hu
  by_cases h : findUrls s = []
  · rw [hpart2 h] at hu
    have hp := (List.mem_filter.mp hu).2
    simp only [Bool.and_eq_true, Bool.or_eq_true] at hp
    exact hp.2
  · rw [hpart1 h] at hu
    exact findUrlsAux_starts s.length s u hu

/-- Witness for `extract_urls_spec`: an input where the regex matches and
one where the token fallback is taken. -/
theorem extract_urls_spec_witness :
    extract_urls_from_input "see https://a.b/c or http://d,x".data
        = findUrls "see https://a.b/c or http://d,x".data
    ∧ extract_urls_from_input "http:// https://".data
        = (splitRuns isSepChar "http:// https://".data).filter
            fun u => !u.isEmpty
              && (strStartsWith "http://".data u
                || strStartsWith "https://".data u) :=
  ⟨(extract_urls_spec _).1 (by decide), (extract_urls_spec _).2.1 (by decide)⟩

lemma stripP_length_le (p : Char → Bool) (s : Str) :
    (stripP p s).length ≤ s.length := by
  unfold stripP
  have h1 := (List.dropWhile_sublist (p := p) (l := s)).length_le
  have h2 := (List.dropWhile_sublist (p := p)
    (l := (s.dropWhile p).reverse)).length_le
  simp only [List.length_reverse] at h1 h2 ⊢
  omega

lemma stripP_subset (p : Char → Bool) (s : Str) : ∀ c ∈ stripP p s, c ∈ s := by
  intro c hc
  unfold stripP at hc
  rw [List.mem_reverse] at hc
  have hc2 := List.Sublist.mem hc (List.dropWhile_sublist _)
  rw [List.mem_reverse] at hc2
  exact List.Sublist.mem hc2 (List.dropWhile_sublist _)

lemma foldl_filter_mem : ∀ (ds acc : Str) (x : Char),
    x ∈ ds.foldl (fun acc ch => acc.filter fun y => y != ch) acc →
    x ∈ acc ∧ x ∉ ds := by
  intro ds
  induction ds with
  | nil => intro acc x h; exact ⟨h, by simp⟩
  | cons d ds ih =>
    intro acc x h
    rw [List.foldl_cons] at h
    obtain ⟨h1, h2⟩ := ih _ x h
    have h3 := List.mem_filter.mp h1
    refine ⟨h3.1, ?_⟩
    intro hmem
    rcases List.mem_cons.mp hmem with h4 | h4
    · subst h4
      have := h3.2
      simp at this
    · exact h2 h4

lemma removeInvalid_mem (s : Str) (x : Char) (h : x ∈ removeInvalid s) :
    x ∈ s ∧ x ∉ invalid_chars :=
  foldl_filter_mem invalid_chars s x h

lemma sanitize_core_length (name : Str) : (sanitize_core name).length ≤ 150 := by
  simp only [sanitize_core]
  have h3 : (if 150 < (removeInvalid (collapseWs name)).length
      then (removeInvalid (collapseWs name)).take 150
      else removeInvalid (collapseWs name)).length ≤ 150 := by
    split
    · simp [List.length_take]
    · omega
  exact le_trans (stripP_length_le _ _)
    (le_trans (stripP_length_le _ _) (le_trans (stripP_length_le _ _) h3))

lemma sanitize_core_no_invalid (name : Str) :
    ∀ c ∈ sanitize_core name, c ∉ invalid_chars := by
  intro c hc
  simp only [sanitize_core] at hc
  have hc2 := stripP_subset _ _ c hc
  have hc3 := stripP_subset _ _ c hc2
  have hc4 := stripP_subset _ _ c hc3
  have hc5 : c ∈ removeInvalid (collapseWs name) := by
    by_cases hif : 150 < (removeInvalid (collapseWs name)).length
    · rw [if_pos hif] at hc4
      exact List.Sublist.mem hc4 (List.take_sublist _ _)
    · rw [if_neg hif] at hc4
      exact hc4
  exact (removeInvalid_mem _ c hc5).2

/-- C10: for every input, `sanitize_filename` returns a non-empty string of
at most 150 characters containing none of the Windows-invalid characters
`<>:"/\|?*`, and returns the default `Unknown_Video` exactly when the
input is empty or sanitises to nothing. -/
theorem sanitize_filename_spec (name : Str) :
    sanitize_filename name ≠ []
    ∧ (sanitize_filename name).length ≤ 150
    ∧ (∀ c ∈ sanitize_filename name, c ∉ invalid_chars)
    ∧ ((name = [] ∨ sanitize_core name = []) →
        sanitize_filename name = "Unknown_Video".data) := by
  by_cases h0 : name = []
  · rw [show sanitize_filename name = "Unknown_Video".data from by
      simp [sanitize_filename, h0]]
    exact ⟨by decide, by decide, by decide, fun _ => rfl⟩
  · by_cases h1 : sanitize_core name = []
    · rw [show sanitize_filename name = "Unknown_Video".data from by
        simp [sanitize_filename, h0, h1]]
      exact ⟨by decide, by decide, by decide, fun _ => rfl⟩
    · rw [show sanitize_filename name = sanitize_core name from by
        simp [sanitize_filename, h0, h1]]
      refine ⟨h1, sanitize_core_length name, sanitize_core_no_invalid name, ?_⟩
      intro hor
      rcases hor with h | h
      · exact absurd h h0
      · exact absurd h h1

/-- Witness for `sanitize_filename_spec`: an input of only invalid
characters sanitises to nothing and yields the default name. -/
theorem sanitize_filename_spec_witness :
    sanitize_filename "<>".data = "Unknown_Video".data
    ∧ sanitize_filename "<>".data ≠ []
    ∧ (sanitize_filename "<>".data).length ≤ 150 :=
  ⟨(sanitize_filename_spec _).2.2.2 (Or.inr (by decide)),
    (sanitize_filename_spec _).1, (sanitize_filename_spec _).2.1⟩
